import Mathlib

/-!
Verification of the BoomAI fix-location and patch-application subsystem
(`boomai/cli.py`): the natural-language filter `_is_natural_language`,
the fuzzy code locator `_line_match`, the single-edit substitution
`_find_and_replace`, and the batch orchestrator `apply_local`.

Strings are modelled as `List Char`; the file system seen by
`apply_local` is modelled as an association list from path to content.
-/

set_option maxRecDepth 20000

namespace BoomAI

open scoped List

/-- Shorthand to turn a string literal into the `List Char` model. -/
def toL (s : String) : List Char := s.toList

/-- ASCII whitespace as recognized by Python's `str.strip`/`str.rstrip`
(space, tab, newline, carriage return, vertical tab, form feed). -/
def isSpace (c : Char) : Bool :=
  c == ' ' || c == '\t' || c == '\n' || c == '\r' || c == '\x0b' || c == '\x0c'

/-- Python `s.lstrip()`: drop leading whitespace. -/
def lstrip (s : List Char) : List Char := s.dropWhile isSpace

/-- Python `s.rstrip()`: drop trailing whitespace. -/
def rstrip (s : List Char) : List Char := (s.reverse.dropWhile isSpace).reverse

/-- Python `s.strip()`: drop leading and trailing whitespace. -/
def strip (s : List Char) : List Char := lstrip (rstrip s)

/-- Python `s.split('\n')`: split on every newline; `"".split('\n') == ['']`. -/
def splitLines : List Char → List (List Char)
  | [] => [[]]
  | c :: cs =>
    match splitLines cs with
    | [] => [[]]
    | l :: ls => if c = '\n' then [] :: l :: ls else (c :: l) :: ls

/-- Python `'\n'.join(lines)`. -/
def joinLines : List (List Char) → List Char
  | [] => []
  | [l] => l
  | l :: ls => l ++ '\n' :: joinLines ls

/-- Python `s.replace('\r\n', '\n')`: one left-to-right pass replacing
each CRLF pair by LF. -/
def normCRLF : List Char → List Char
  | '\r' :: '\n' :: cs => '\n' :: normCRLF cs
  | c :: cs => c :: normCRLF cs
  | [] => []

/-- Python `s.startswith(p)` (here: `startsWithL p s`). -/
def startsWithL : List Char → List Char → Bool
  | [], _ => true
  | _ :: _, [] => false
  | p :: ps, c :: cs => p == c && startsWithL ps cs

/-- Python `pat in s` (substring containment). -/
def occursIn (pat : List Char) : List Char → Bool
  | [] => pat.isEmpty
  | c :: cs => startsWithL pat (c :: cs) || occursIn pat cs

/-- Python `s.replace(pat, rep, 1)`: replace the leftmost occurrence of
`pat` in `s` by `rep`; `s` unchanged when `pat` does not occur. -/
def replaceFirst (s pat rep : List Char) : List Char :=
  match s with
  | [] => if pat.isEmpty then rep else []
  | c :: cs =>
    if startsWithL pat (c :: cs) then rep ++ (c :: cs).drop pat.length
    else c :: replaceFirst cs pat rep

/-- The fixed imperative-verb prefixes of `_is_natural_language`
(`instruction_starters` in `cli.py`). -/
def instructionStarters : List (List Char) :=
  [toL "Remove ", toL "Delete ", toL "Replace ", toL "Update ", toL "Change ",
   toL "Rename ", toL "Move ", toL "Add ", toL "Ensure ", toL "Consider ",
   toL "Refactor ", toL "Fix ", toL "Implement ", toL "Use ", toL "Convert "]

/-- The code-signal character set of `_is_natural_language`
(`code_chars` in `cli.py`). -/
def codeChars : List Char :=
  ['\x7b', '\x7d', '(', ')', ';', '=', '<', '>', '[', ']']

/-- `_is_natural_language(suggestion)` from `cli.py`: trim; classify as
natural language if the result starts with an imperative prefix, or if
it contains none of the code-signal characters. -/
def isNaturalLanguage (suggestion : List Char) : Bool :=
  let s := strip suggestion
  if instructionStarters.any (fun p => startsWithL p s) then true
  else if !(codeChars.any (fun c => s.contains c)) then true
  else false

/-- Python `not l.strip()`: the line consists only of whitespace. -/
def isBlank (l : List Char) : Bool := l.all isSpace

/-- Drop leading all-whitespace lines (the `while ... pop(0)` loop of
`_line_match`). -/
def dropLeadBlank : List (List Char) → List (List Char)
  | [] => []
  | l :: ls => if isBlank l then dropLeadBlank ls else l :: ls

/-- Drop all-whitespace lines at both ends of the line list (the two
`while` loops of `_line_match`). -/
def trimBlank (ls : List (List Char)) : List (List Char) :=
  (dropLeadBlank (dropLeadBlank ls).reverse).reverse

/-- The processed `old_stripped` line list of `_line_match`:
`old_code.strip().split('\n')`, each line rstripped, then blank lines
removed from both ends. -/
def oldTrimmed (old : List Char) : List (List Char) :=
  trimBlank ((splitLines (strip old)).map rstrip)

/-- `abs(i - (hint_line - 1))` from `_line_match`. -/
def distTo (hint : Int) (i : Nat) : Nat := ((i : Int) - (hint - 1)).natAbs

/-- The rstripped window of `n` content lines starting at index `i`
(`window` in `_line_match`). -/
def windowAt (cl : List (List Char)) (i n : Nat) : List (List Char) :=
  ((cl.drop i).take n).map rstrip

/-- The scanning loop of `_line_match`: visit candidate start indices in
order, keeping the first window whose distance to the hint is strictly
smaller than the current best. -/
def scanLoop (cl tr : List (List Char)) (hint : Int) :
    List Nat → Option (Nat × Nat) → Option (Nat × Nat)
  | [], acc => acc
  | i :: is, acc =>
    if windowAt cl i tr.length = tr then
      match acc with
      | none => scanLoop cl tr hint is (some (i, distTo hint i))
      | some (b, bd) =>
        if distTo hint i < bd then scanLoop cl tr hint is (some (i, distTo hint i))
        else scanLoop cl tr hint is (some (b, bd))
    else scanLoop cl tr hint is acc

/-- `_line_match(content, old_code, hint_line)` from `cli.py`: find the
`old_code` lines in `content` using stripped comparison; returns
`(start_line_idx, line_count)` or `None`, picking the match closest to
the hint line. -/
def lineMatch (content old : List Char) (hint : Int) : Option (Nat × Nat) :=
  let cl := splitLines content
  let tr := oldTrimmed old
  if tr.isEmpty then none
  else
    match scanLoop cl tr hint (List.range (cl.length + 1 - tr.length)) none with
    | none => none
    | some (b, _) => some (b, tr.length)

/-- `_find_and_replace(content, old_code, new_code, hint_line)` from
`cli.py`: normalize line endings, try the verbatim fast path, then the
fuzzy line-range splice; returns `(new_content, success)`. -/
def findAndReplace (content old new : List Char) (hint : Int) :
    List Char × Bool :=
  let c := normCRLF content
  let o := normCRLF old
  let nw := normCRLF new
  if occursIn o c then (replaceFirst c o nw, true)
  else
    match lineMatch c o hint with
    | some (i, n) =>
      let ls := splitLines c
      (joinLines (ls.take i ++ splitLines nw ++ ls.drop (i + n)), true)
    | none => (c, false)

/-- A review finding as consumed by `apply_local`: `file`, 1-based hint
`line`, optional `old_code` and optional `suggestion` (Python `None` is
`none`; the empty string is `some []`). -/
structure Finding where
  file : List Char
  line : Int
  old_code : Option (List Char)
  suggestion : Option (List Char)
deriving DecidableEq

/-- Python truthiness test `not x` on an optional string: true for
`None` and for the empty string. -/
def falsy : Option (List Char) → Bool
  | none => true
  | some s => s.isEmpty

/-- The per-finding guard of `apply_local`'s grouping loop: a finding is
kept unless its suggestion or old_code is falsy, either is classified as
natural language, or it fails the optional file filter. -/
def applicable (ff : Option (List Char)) (f : Finding) : Bool :=
  !(falsy f.suggestion || falsy f.old_code)
  && !(isNaturalLanguage (f.suggestion.getD [])
       || isNaturalLanguage (f.old_code.getD []))
  && (match ff with
      | none => true
      | some p => if p.isEmpty then true else f.file == p)

/-- `by_file.setdefault(f.file, []).append(f)`: append `f` under key
`k`, creating the key at the end on first use. -/
def addToGroup (k : List Char) (f : Finding) :
    List (List Char × List Finding) → List (List Char × List Finding)
  | [] => [(k, [f])]
  | (k', fs) :: rest =>
    if k = k' then (k', fs ++ [f]) :: rest
    else (k', fs) :: addToGroup k f rest

/-- The grouping loop of `apply_local`: filter the findings, then group
them by file in first-seen key order, preserving in-file order. -/
def groupByFile (ff : Option (List Char)) (findings : List Finding) :
    List (List Char × List Finding) :=
  (findings.filter (applicable ff)).foldl (fun g f => addToGroup f.file f g) []

/-- Insert a finding into a line-descending list, after all findings
with a line number at least as large (the position Python's stable
`sorted(..., key=line, reverse=True)` gives it). -/
def insertDesc (f : Finding) : List Finding → List Finding
  | [] => [f]
  | g :: gs => if g.line < f.line then f :: g :: gs else g :: insertDesc f gs

/-- Python `sorted(file_findings, key=lambda x: x.line, reverse=True)`:
stable sort by descending line number. -/
def sortDesc (fs : List Finding) : List Finding :=
  fs.foldl (fun acc f => insertDesc f acc) []

/-- One iteration of `apply_local`'s per-file loop body: run
`_find_and_replace` on the current content and count successes. -/
def applyStep (st : List Char × Nat) (f : Finding) : List Char × Nat :=
  let r := findAndReplace st.1 (f.old_code.getD []) (f.suggestion.getD []) f.line
  (r.1, if r.2 then st.2 + 1 else st.2)

/-- `apply_local`'s per-file loop: process the file's findings in
descending line order, threading the mutated content through. -/
def applyFile (content : List Char) (fs : List Finding) : List Char × Nat :=
  (sortDesc fs).foldl applyStep (content, 0)

/-- The local file system seen by `apply_local`: path → content. -/
abbrev FS := List (List Char × List Char)

/-- Look up a path (first matching entry). -/
def fsLookup (fp : List Char) : FS → Option (List Char)
  | [] => none
  | (k, c) :: rest => if fp = k then some c else fsLookup fp rest

/-- Overwrite the content stored at a path (first matching entry). -/
def fsUpdate (fp c : List Char) : FS → FS
  | [] => []
  | (k, v) :: rest =>
    if fp = k then (k, c) :: rest else (k, v) :: fsUpdate fp c rest

/-- The number of edits `apply_local` applies for one grouped file
against a given file system: 0 when the file is missing, otherwise the
success count of `applyFile` on the CRLF-normalized content. -/
def perFileCount (files : FS) (g : List Char × List Finding) : Nat :=
  match fsLookup g.1 files with
  | none => 0
  | some c => (applyFile (normCRLF c) g.2).2

/-- One iteration of `apply_local`'s outer loop: skip a missing file;
otherwise read, normalize, apply, and write back only when at least one
edit succeeded, accumulating the applied count. -/
def applyLocalStep (st : FS × Nat) (g : List Char × List Finding) :
    FS × Nat :=
  match fsLookup g.1 st.1 with
  | none => st
  | some c =>
    let r := applyFile (normCRLF c) g.2
    if 0 < r.2 then (fsUpdate g.1 r.1 st.1, st.2 + r.2) else st

/-- `apply_local(findings, repo_path, file_filter)` from `cli.py`,
with the on-disk files modelled as an association list: returns the
resulting file system and the total number of applied fixes. -/
def applyLocal (ff : Option (List Char)) (findings : List Finding)
    (files : FS) : FS × Nat :=
  (groupByFile ff findings).foldl applyLocalStep (files, 0)


/-- A window equal to a nonempty `tr` fits inside the content lines. -/
lemma matches_in_range {cl tr : List (List Char)} {j : Nat}
    (hne : tr ≠ []) (h : windowAt cl j tr.length = tr) :
    j + tr.length ≤ cl.length := by
  have hlen : (windowAt cl j tr.length).length = tr.length := by rw [h]
  simp only [windowAt, List.length_map, List.length_take, List.length_drop] at hlen
  have h0 : 0 < tr.length := List.length_pos.mpr hne
  omega

/-- Invariant of `_line_match`'s scanning loop over an ascending index
range: the returned best index matches, realizes the minimal distance to
the hint over all matching indices seen, and ties go to the earliest
index. -/
lemma scanLoop_spec (cl tr : List (List Char)) (hint : Int) :
    ∀ (c i : Nat) (acc : Option (Nat × Nat)),
    (∀ b bd, acc = some (b, bd) →
      bd = distTo hint b ∧ windowAt cl b tr.length = tr ∧ b < i ∧
      ∀ j, j < i → windowAt cl j tr.length = tr →
        bd ≤ distTo hint j ∧ (distTo hint j = bd → b ≤ j)) →
    (acc = none → ∀ j, j < i → windowAt cl j tr.length ≠ tr) →
    (∀ b bd, scanLoop cl tr hint (List.range' i c) acc = some (b, bd) →
      bd = distTo hint b ∧ windowAt cl b tr.length = tr ∧ b < i + c ∧
      ∀ j, j < i + c → windowAt cl j tr.length = tr →
        bd ≤ distTo hint j ∧ (distTo hint j = bd → b ≤ j))
    ∧ (scanLoop cl tr hint (List.range' i c) acc = none →
        ∀ j, j < i + c → windowAt cl j tr.length ≠ tr) := by
  intro c
  induction c with
  | zero =>
    intro i acc hacc hnone
    constructor
    · intro b bd hb
      obtain ⟨h1, h2, h3, h4⟩ := hacc b bd hb
      exact ⟨h1, h2, by omega, fun j hj => h4 j (by omega)⟩
    · intro hn j hj
      exact hnone hn j (by omega)
  | succ n ih =>
    intro i acc hacc hnone
    have harith : i + (n + 1) = (i + 1) + n := by omega
    have hr' : List.range' i (n + 1) = i :: List.range' (i + 1) n := rfl
    rw [hr', harith]
    by_cases hw : windowAt cl i tr.length = tr
    · cases acc with
      | none =>
        have hstep : scanLoop cl tr hint (i :: List.range' (i + 1) n) none
            = scanLoop cl tr hint (List.range' (i + 1) n)
                (some (i, distTo hint i)) := by
          simp [scanLoop, hw]
        rw [hstep]
        apply ih (i + 1) (some (i, distTo hint i))
        · intro b bd hb
          rw [Option.some.injEq, Prod.mk.injEq] at hb
          obtain ⟨h1, h2⟩ := hb
          subst h1; subst h2
          refine ⟨rfl, hw, Nat.lt_succ_self i, ?_⟩
          intro j hj hwj
          rcases Nat.lt_succ_iff_lt_or_eq.mp hj with hj' | rfl
          · exact absurd hwj (hnone rfl j hj')
          · exact ⟨le_refl _, fun _ => le_refl _⟩
        · intro h; exact absurd h (Option.some_ne_none _)
      | some p =>
        obtain ⟨b0, bd0⟩ := p
        obtain ⟨hbd0, hwb0, hb0lt, hb0min⟩ := hacc b0 bd0 rfl
        by_cases hd : distTo hint i < bd0
        · have hstep : scanLoop cl tr hint (i :: List.range' (i + 1) n)
              (some (b0, bd0))
              = scanLoop cl tr hint (List.range' (i + 1) n)
                  (some (i, distTo hint i)) := by
            simp [scanLoop, hw, hd]
          rw [hstep]
          apply ih (i + 1) (some (i, distTo hint i))
          · intro b bd hb
            rw [Option.some.injEq, Prod.mk.injEq] at hb
            obtain ⟨h1, h2⟩ := hb
            subst h1; subst h2
            refine ⟨rfl, hw, Nat.lt_succ_self i, ?_⟩
            intro j hj hwj
            rcases Nat.lt_succ_iff_lt_or_eq.mp hj with hj' | rfl
            · have hmin := hb0min j hj' hwj
              refine ⟨le_trans (le_of_lt hd) hmin.1, ?_⟩
              intro heq
              exfalso
              have := hmin.1
              omega
            · exact ⟨le_refl _, fun _ => le_refl _⟩
          · intro h; exact absurd h (Option.some_ne_none _)
        · have hstep : scanLoop cl tr hint (i :: List.range' (i + 1) n)
              (some (b0, bd0))
              = scanLoop cl tr hint (List.range' (i + 1) n)
                  (some (b0, bd0)) := by
            simp [scanLoop, hw, hd]
          rw [hstep]
          apply ih (i + 1) (some (b0, bd0))
          · intro b bd hb
            rw [Option.some.injEq, Prod.mk.injEq] at hb
            obtain ⟨h1, h2⟩ := hb
            subst h1; subst h2
            refine ⟨hbd0, hwb0, by omega, ?_⟩
            intro j hj hwj
            rcases Nat.lt_succ_iff_lt_or_eq.mp hj with hj' | rfl
            · exact hb0min j hj' hwj
            · exact ⟨by omega, fun _ => by omega⟩
          · intro h; exact absurd h (Option.some_ne_none _)
    · have hstep : scanLoop cl tr hint (i :: List.range' (i + 1) n) acc
          = scanLoop cl tr hint (List.range' (i + 1) n) acc := by
        simp [scanLoop, hw]
      rw [hstep]
      apply ih (i + 1) acc
      · intro b bd hb
        obtain ⟨h1, h2, h3, h4⟩ := hacc b bd hb
        refine ⟨h1, h2, by omega, ?_⟩
        intro j hj hwj
        rcases Nat.lt_succ_iff_lt_or_eq.mp hj with hj' | rfl
        · exact h4 j hj' hwj
        · exact absurd hwj hw
      · intro hn j hj hwj
        rcases Nat.lt_succ_iff_lt_or_eq.mp hj with hj' | rfl
        · exact hnone hn j hj' hwj
        · exact hw hwj

/-- What a successful `_line_match` result means: the returned count is
the trimmed block length, the window at the returned index matches, and
no matching window sits strictly closer to the hint (ties go to the
earlier index). -/
lemma lineMatch_some_spec {content old : List Char} {hint : Int} {i n : Nat}
    (h : lineMatch content old hint = some (i, n)) :
    n = (oldTrimmed old).length ∧
    windowAt (splitLines content) i n = oldTrimmed old ∧
    ∀ j, windowAt (splitLines content) j n = oldTrimmed old →
      distTo hint i ≤ distTo hint j ∧ (distTo hint j = distTo hint i → i ≤ j) := by
  simp only [lineMatch] at h
  cases htr : (oldTrimmed old).isEmpty with
  | true => rw [htr] at h; simp at h
  | false =>
    rw [htr] at h
    simp only [Bool.false_eq_true, if_false] at h
    have hne : oldTrimmed old ≠ [] := by
      intro he
      rw [he] at htr
      simp at htr
    cases hs : scanLoop (splitLines content) (oldTrimmed old) hint
        (List.range ((splitLines content).length + 1 - (oldTrimmed old).length))
        none with
    | none => rw [hs] at h; simp at h
    | some p =>
      obtain ⟨b, bd⟩ := p
      rw [hs] at h
      simp only [Option.some.injEq, Prod.mk.injEq] at h
      obtain ⟨h1, h2⟩ := h
      subst h1
      subst h2
      rw [List.range_eq_range'] at hs
      have hspec := (scanLoop_spec (splitLines content) (oldTrimmed old) hint
        ((splitLines content).length + 1 - (oldTrimmed old).length) 0 none
        (fun b bd hb => absurd hb (by simp))
        (fun _ j hj => absurd hj (Nat.not_lt_zero j))).1 b bd hs
      obtain ⟨hb1, hb2, hb3, hb4⟩ := hspec
      subst hb1
      refine ⟨rfl, hb2, ?_⟩
      intro j hwj
      have hjr : j + (oldTrimmed old).length ≤ (splitLines content).length :=
        matches_in_range hne hwj
      have h0 : 0 < (oldTrimmed old).length := List.length_pos.mpr hne
      exact hb4 j (by omega) hwj

/-- C7: `_is_natural_language` is pure and returns true exactly when the
trimmed string starts with one of the fifteen imperative prefixes
(case-sensitive, trailing space included) or contains none of the
code-signal characters; the single word "Fix" is not caught by the
prefix rule (no trailing space) and is classified by the character
check, and a lowercase "remove (x);" is classified as code. -/
theorem isNaturalLanguage_iff :
    (∀ s : List Char,
      isNaturalLanguage s = true ↔
        ((∃ p ∈ instructionStarters, startsWithL p (strip s) = true)
          ∨ ∀ c ∈ codeChars, (strip s).contains c = false))
    ∧ isNaturalLanguage (toL "Fix") = true
    ∧ (∀ p ∈ instructionStarters, startsWithL p (strip (toL "Fix")) = false)
    ∧ isNaturalLanguage (toL "remove (x);") = false := by
  refine ⟨?_, by decide, by decide, by decide⟩
  intro s
  simp only [isNaturalLanguage]
  by_cases hA : (instructionStarters.any fun p => startsWithL p (strip s)) = true
  · simp only [hA, if_true, true_iff]
    exact Or.inl (List.any_eq_true.mp hA)
  · rw [if_neg hA]
    by_cases hB : (codeChars.any fun c => (strip s).contains c) = true
    · simp only [hB, Bool.not_true, Bool.false_eq_true, if_false, false_iff]
      rintro (h | h)
      · exact hA (List.any_eq_true.mpr h)
      · obtain ⟨c, hc, hcc⟩ := List.any_eq_true.mp hB
        rw [h c hc] at hcc
        exact Bool.false_ne_true hcc
    · have hB' : (codeChars.any fun c => (strip s).contains c) = false :=
        Bool.eq_false_iff.mpr hB
      simp only [hB', Bool.not_false, if_true, true_iff]
      exact Or.inr fun c hc => Bool.eq_false_iff.mpr (List.any_eq_false.mp hB' c hc)

/-- C2: a successful `_line_match` returns the matching window whose
0-based start index has the smallest absolute distance to
`hint_line - 1`, and on equal distance the earlier window wins. -/
theorem lineMatch_nearest (content old : List Char) (hint : Int) (i n : Nat)
    (h : lineMatch content old hint = some (i, n)) :
    windowAt (splitLines content) i n = oldTrimmed old ∧
    ∀ j, windowAt (splitLines content) j n = oldTrimmed old →
      distTo hint i ≤ distTo hint j ∧ (distTo hint j = distTo hint i → i ≤ j) := by
  have hs := lineMatch_some_spec h
  exact ⟨hs.2.1, hs.2.2⟩

/-- A 52-line content whose 2-line block `A() / B()` appears at 1-based
lines 10–11 and 50–51 (0-based starts 9 and 49). -/
def wLine (k : Nat) : List Char :=
  if k = 9 ∨ k = 49 then toL "A()"
  else if k = 10 ∨ k = 50 then toL "B()"
  else toL "z"

/-- The tie-break scenario content from the spec's testable property 2. -/
def wContent : List Char := joinLines ((List.range 52).map wLine)

/-- The searched block of the tie-break scenario. -/
def wOld : List Char := toL "A()\nB()"

theorem lineMatch_nearest_inst :
    lineMatch wContent wOld 52 = some (49, 2) ∧ distTo 52 49 ≤ distTo 52 9 := by
  have h : lineMatch wContent wOld 52 = some (49, 2) := by decide
  exact ⟨h, ((lineMatch_nearest wContent wOld 52 49 2 h).2 9 (by decide)).1⟩

/-- C3 counterexample: `old_code = "  x()"` differs from the content
line `"x()"` in leading indentation on its (first) line, yet the
locator matches it, because `_line_match` runs `old_code.strip()`
before splitting, which removes the first line's leading whitespace;
the rstripped lines themselves are unequal. -/
theorem lineMatch_leading_ws_cex :
    lineMatch (toL "x()") (toL "  x()") 1 = some (0, 1) ∧
    rstrip (toL "  x()") ≠ rstrip (toL "x()") := by decide

/-- C3 (amended): the locator first strips whitespace from both ends of
the whole `old_code` (removing leading whitespace of its first line and
trailing of its last), rstrips every remaining line of both sides, and
a window matches exactly when the rstripped window equals that
processed block; trailing-whitespace drift still matches, interior
leading-indentation drift never matches, and leading whitespace on
`old_code`'s first line is discarded rather than compared. -/
theorem lineMatch_rstrip_spec :
    (∀ (content old : List Char) (hint : Int) (i n : Nat),
      lineMatch content old hint = some (i, n) →
      n = (oldTrimmed old).length ∧
      (((splitLines content).drop i).take n).map rstrip = oldTrimmed old)
    ∧ lineMatch (toL "foo(a, b)   ") (toL "foo(a, b)") 1 = some (0, 1)
    ∧ lineMatch (toL "x()\ny()") (toL "x()\n  y()") 1 = none
    ∧ lineMatch (toL "  x()") (toL "x()") 1 = none
    ∧ oldTrimmed (toL "  x()\n  y()") = [toL "x()", toL "  y()"] := by
  refine ⟨?_, by decide, by decide, by decide, by decide⟩
  intro content old hint i n h
  have hs := lineMatch_some_spec h
  exact ⟨hs.1, hs.2.1⟩

theorem lineMatch_rstrip_inst :
    (((splitLines (toL "p\nq()  ")).drop 1).take 1).map rstrip
      = oldTrimmed (toL "q()") :=
  (lineMatch_rstrip_spec.1 (toL "p\nq()  ") (toL "q()") 2 1 1 (by decide)).2

/-- C9: the locator reports no match as a normal value: it returns
`none` whenever the trimmed `old_code` has zero lines, and whenever no
window of the content matches the trimmed block. -/
theorem lineMatch_none_cases (content old : List Char) (hint : Int) :
    (oldTrimmed old = [] → lineMatch content old hint = none)
    ∧ ((∀ j, windowAt (splitLines content) j (oldTrimmed old).length
          ≠ oldTrimmed old) →
        lineMatch content old hint = none) := by
  constructor
  · intro he
    simp [lineMatch, he]
  · intro hno
    cases h : lineMatch content old hint with
    | none => rfl
    | some p =>
      obtain ⟨i, n⟩ := p
      have hs := lineMatch_some_spec h
      have h2 := hs.2.1
      rw [hs.1] at h2
      exact absurd h2 (hno i)

theorem lineMatch_none_inst :
    lineMatch (toL "a\nb") (toL "  \n ") 1 = none ∧
    lineMatch (toL "a\nb") (toL "zz()") 5 = none := by
  constructor
  · exact (lineMatch_none_cases (toL "a\nb") (toL "  \n ") 1).1 (by decide)
  · apply (lineMatch_none_cases (toL "a\nb") (toL "zz()") 5).2
    intro j
    match j with
    | 0 => decide
    | 1 => decide
    | (k + 2) =>
      have hsp : splitLines (toL "a\nb") = [toL "a", toL "b"] := by decide
      have hdrop : (splitLines (toL "a\nb")).drop (k + 2) = [] := by
        rw [hsp]
        apply List.drop_eq_nil_of_le
        simp
      intro hcontra
      rw [windowAt, hdrop] at hcontra
      simp at hcontra
      exact absurd hcontra.symm (by decide)

/-- `startsWithL p s` holds exactly when `p` is a leading segment of `s`. -/
lemma startsWithL_iff (p s : List Char) :
    startsWithL p s = true ↔ ∃ t, s = p ++ t := by
  induction p generalizing s with
  | nil => simp [startsWithL]
  | cons a ps ih =>
    cases s with
    | nil => simp [startsWithL]
    | cons c cs =>
      simp only [startsWithL, Bool.and_eq_true, beq_iff_eq, ih]
      constructor
      · rintro ⟨rfl, t, rfl⟩
        exact ⟨t, rfl⟩
      · rintro ⟨t, ht⟩
        injection ht with h1 h2
        exact ⟨h1.symm, t, h2⟩

/-- `replaceFirst` replaces exactly the leftmost occurrence of the
pattern: the prefix it keeps is the shortest one at which the pattern
occurs. -/
lemma replaceFirst_spec (pat rep : List Char) :
    ∀ s : List Char, occursIn pat s = true →
    ∃ pre post, s = pre ++ pat ++ post ∧
      replaceFirst s pat rep = pre ++ rep ++ post ∧
      ∀ pre' post', s = pre' ++ pat ++ post' → pre.length ≤ pre'.length := by
  intro s
  induction s with
  | nil =>
    intro h
    simp only [occursIn, List.isEmpty_iff] at h
    refine ⟨[], [], by simp [h], ?_, fun pre' post' _ => Nat.zero_le _⟩
    simp [replaceFirst, h]
  | cons c cs ih =>
    intro h
    by_cases hp : startsWithL pat (c :: cs) = true
    · obtain ⟨t, ht⟩ := (startsWithL_iff pat (c :: cs)).mp hp
      refine ⟨[], t, by simpa using ht, ?_, fun pre' post' _ => Nat.zero_le _⟩
      simp only [replaceFirst, hp, if_true]
      rw [ht, List.drop_left]
      simp
    · have hocc : occursIn pat cs = true := by
        simp only [occursIn, Bool.or_eq_true] at h
        rcases h with h | h
        · exact absurd h hp
        · exact h
      obtain ⟨pre, post, h1, h2, h3⟩ := ih hocc
      refine ⟨c :: pre, post, by simp [h1], ?_, ?_⟩
      · simp only [replaceFirst, hp, Bool.false_eq_true, if_false]
        rw [h2]
        simp
      · intro pre' post' heq
        cases pre' with
        | nil =>
          exfalso
          apply hp
          apply (startsWithL_iff pat (c :: cs)).mpr
          exact ⟨post', by simpa using heq⟩
        | cons d pre'' =>
          injection heq with hd htail
          exact Nat.succ_le_succ (h3 pre'' post' htail)

/-- C1 counterexample: `_find_and_replace` normalizes CRLF to LF before
anything else, so on a failed edit the returned content is the
normalized input, not byte-for-byte the input. -/
theorem findAndReplace_crlf_not_id :
    findAndReplace (toL "a\r\nb") (toL "x") (toL "y") 1 = (toL "a\nb", false) ∧
    toL "a\nb" ≠ toL "a\r\nb" := by decide

/-- C1 (amended): after CRLF→LF normalization of content, old_code and
replacement, `_find_and_replace` replaces exactly the first verbatim
occurrence of the normalized old_code when there is one; otherwise, on
a fuzzy-locator match it replaces exactly that line range with the
replacement split on newlines; otherwise it returns the normalized
input content (byte-for-byte the input when the input had no CRLF) with
failure. At most one substitution occurs. -/
theorem findAndReplace_spec (content old new : List Char) (hint : Int) :
    (occursIn (normCRLF old) (normCRLF content) = true →
      ∃ pre post,
        normCRLF content = pre ++ normCRLF old ++ post ∧
        findAndReplace content old new hint = (pre ++ normCRLF new ++ post, true) ∧
        ∀ pre' post', normCRLF content = pre' ++ normCRLF old ++ post' →
          pre.length ≤ pre'.length)
    ∧ (occursIn (normCRLF old) (normCRLF content) = false →
        ∀ i n, lineMatch (normCRLF content) (normCRLF old) hint = some (i, n) →
        findAndReplace content old new hint =
          (joinLines ((splitLines (normCRLF content)).take i
            ++ splitLines (normCRLF new)
            ++ (splitLines (normCRLF content)).drop (i + n)), true))
    ∧ (occursIn (normCRLF old) (normCRLF content) = false →
        lineMatch (normCRLF content) (normCRLF old) hint = none →
        findAndReplace content old new hint = (normCRLF content, false)) := by
  refine ⟨?_, ?_, ?_⟩
  · intro hocc
    obtain ⟨pre, post, h1, h2, h3⟩ :=
      replaceFirst_spec (normCRLF old) (normCRLF new) (normCRLF content) hocc
    exact ⟨pre, post, h1, by simp [findAndReplace, hocc, h2], h3⟩
  · intro hocc i n hm
    simp [findAndReplace, hocc, hm]
  · intro hocc hm
    simp [findAndReplace, hocc, hm]

theorem findAndReplace_spec_inst :
    findAndReplace (toL "q\nw") (toL "zz") (toL "y") 1
      = (normCRLF (toL "q\nw"), false) :=
  (findAndReplace_spec (toL "q\nw") (toL "zz") (toL "y") 1).2.2
    (by decide) (by decide)

/-- Inserting into the descending list is a permutation of consing. -/
lemma insertDesc_perm (f : Finding) (l : List Finding) :
    insertDesc f l ~ f :: l := by
  induction l with
  | nil => exact List.Perm.refl _
  | cons g gs ih =>
    simp only [insertDesc]
    by_cases h : g.line < f.line
    · rw [if_pos h]
    · rw [if_neg h]
      exact (List.Perm.cons g ih).trans (List.Perm.swap f g gs)

/-- `sortDesc` permutes its input. -/
lemma sortDesc_perm (fs : List Finding) : sortDesc fs ~ fs := by
  suffices h : ∀ l acc : List Finding,
      l.foldl (fun acc f => insertDesc f acc) acc ~ acc ++ l by
    simpa using h fs []
  intro l
  induction l with
  | nil => intro acc; simp
  | cons f rest ih =>
    intro acc
    simp only [List.foldl_cons]
    refine (ih (insertDesc f acc)).trans ?_
    refine ((insertDesc_perm f acc).append_right rest).trans ?_
    exact List.perm_middle.symm

/-- Inserting preserves the descending (non-increasing) ordering. -/
lemma insertDesc_sorted {l : List Finding} (f : Finding)
    (h : l.Pairwise (fun a b => b.line ≤ a.line)) :
    (insertDesc f l).Pairwise (fun a b => b.line ≤ a.line) := by
  induction l with
  | nil => simp [insertDesc]
  | cons g gs ih =>
    rw [List.pairwise_cons] at h
    obtain ⟨hg, hgs⟩ := h
    simp only [insertDesc]
    by_cases hlt : g.line < f.line
    · rw [if_pos hlt, List.pairwise_cons]
      constructor
      · intro b hb
        rcases List.mem_cons.mp hb with rfl | hb'
        · omega
        · have := hg b hb'
          omega
      · exact List.pairwise_cons.mpr ⟨hg, hgs⟩
    · rw [if_neg hlt, List.pairwise_cons]
      constructor
      · intro b hb
        have hb2 : b ∈ f :: gs := (insertDesc_perm f gs).mem_iff.mp hb
        rcases List.mem_cons.mp hb2 with rfl | hb'
        · omega
        · exact hg b hb'
      · exact ih hgs

/-- `sortDesc` output is non-increasing in line number. -/
lemma sortDesc_sorted (fs : List Finding) :
    (sortDesc fs).Pairwise (fun a b => b.line ≤ a.line) := by
  suffices h : ∀ l acc : List Finding,
      acc.Pairwise (fun a b => b.line ≤ a.line) →
      (l.foldl (fun acc f => insertDesc f acc) acc).Pairwise
        (fun a b => b.line ≤ a.line) by
    exact h fs [] (by simp)
  intro l
  induction l with
  | nil => intro acc h; simpa using h
  | cons f rest ih =>
    intro acc h
    simp only [List.foldl_cons]
    exact ih _ (insertDesc_sorted f h)

/-- A non-increasing list with pairwise-distinct line numbers is
strictly decreasing between neighbours. -/
lemma sorted_ne_strict (l : List Finding)
    (h1 : l.Pairwise (fun a b => b.line ≤ a.line))
    (h2 : l.Pairwise (fun a b => a.line ≠ b.line)) :
    List.Chain' (fun a b => b.line < a.line) l := by
  have h3 : l.Pairwise (fun a b => b.line < a.line) :=
    (h1.and h2).imp fun hab => lt_of_le_of_ne hab.1 fun he => hab.2 he.symm
  exact h3.chain'

/-- A first of two findings sharing hint line 5. -/
def c4a : Finding := ⟨toL "f", 5, some (toL "a = 1"), some (toL "b = 2")⟩

/-- A second finding also at hint line 5. -/
def c4b : Finding := ⟨toL "f", 5, some (toL "c = 3"), some (toL "d = 4")⟩

/-- C4 counterexample: with two edits sharing hint line 5 the applier's
processing order is not strictly descending in line number (the sort is
stable, keeping both line-5 edits adjacent in original order). -/
theorem sortDesc_not_strict_cex :
    sortDesc [c4a, c4b] = [c4a, c4b] ∧
    ¬ List.Chain' (fun a b => b.line < a.line) (sortDesc [c4a, c4b]) := by
  have he : sortDesc [c4a, c4b] = [c4a, c4b] := by decide
  refine ⟨he, ?_⟩
  intro h
  rw [he, List.chain'_cons] at h
  exact absurd h.1 (by decide)

/-- C4 (amended): the applier processes one file's edits as a
permutation of the batch sorted in descending (non-increasing) order of
hint line — strictly descending whenever the batch's hint lines are
pairwise distinct — and applies them sequentially by folding
`_find_and_replace` over the progressively-mutated content. -/
theorem sortDesc_spec (fs : List Finding) (content : List Char) :
    sortDesc fs ~ fs
    ∧ (sortDesc fs).Pairwise (fun a b => b.line ≤ a.line)
    ∧ (fs.Pairwise (fun a b => a.line ≠ b.line) →
        List.Chain' (fun a b => b.line < a.line) (sortDesc fs))
    ∧ applyFile content fs = (sortDesc fs).foldl applyStep (content, 0) := by
  refine ⟨sortDesc_perm fs, sortDesc_sorted fs, ?_, rfl⟩
  intro hne
  apply sorted_ne_strict _ (sortDesc_sorted fs)
  exact ((sortDesc_perm fs).pairwise_iff fun h => Ne.symm h).mpr hne

/-- A finding at hint line 1 with distinct-line companion `c4w2`. -/
def c4w1 : Finding := ⟨toL "f", 1, some (toL "a = 1"), some (toL "b = 2")⟩

/-- A finding at hint line 7. -/
def c4w2 : Finding := ⟨toL "f", 7, some (toL "c = 3"), some (toL "d = 4")⟩

theorem sortDesc_spec_inst :
    List.Chain' (fun a b => b.line < a.line) (sortDesc [c4w1, c4w2]) :=
  (sortDesc_spec [c4w1, c4w2] []).2.2.1 (by decide)

/-- C5: evaluating `apply_local` on an edit whose non-empty `old_code`
is present verbatim in the file but whose replacement is the empty
string: Python's falsy test `not f.suggestion` filters the edit out, so
zero edits are applied and the content is unchanged — the empty-string
"delete" replacement the spec promises is never carried out. -/
theorem emptySuggestion_skipped :
    applyLocal none [⟨toL "f", 2, some (toL "x = 1"), some []⟩]
      [(toL "f", toL "a\nx = 1\nb")]
      = ([(toL "f", toL "a\nx = 1\nb")], 0)
    ∧ occursIn (toL "x = 1") (toL "a\nx = 1\nb") = true
    ∧ falsy (some ([] : List Char)) = true := by decide

/-- Pushing a per-member predicate through `addToGroup`. -/
lemma addToGroup_mem_pred (Q : List Char → Finding → Prop) (k : List Char)
    (x : Finding) (g : List (List Char × List Finding))
    (hg : ∀ fp fs, (fp, fs) ∈ g → ∀ f ∈ fs, Q fp f) (hx : Q k x) :
    ∀ fp fs, (fp, fs) ∈ addToGroup k x g → ∀ f ∈ fs, Q fp f := by
  induction g with
  | nil =>
    intro fp fs hmem f hf
    simp only [addToGroup, List.mem_singleton, Prod.mk.injEq] at hmem
    obtain ⟨rfl, rfl⟩ := hmem
    rcases List.mem_singleton.mp hf with rfl
    exact hx
  | cons p rest ih =>
    obtain ⟨k', fs'⟩ := p
    intro fp fs hmem f hf
    simp only [addToGroup] at hmem
    by_cases he : k = k'
    · rw [if_pos he] at hmem
      rcases List.mem_cons.mp hmem with heq | hmem'
      · rw [Prod.mk.injEq] at heq
        obtain ⟨rfl, rfl⟩ := heq
        rcases List.mem_append.mp hf with hf' | hf'
        · exact hg fp fs' (List.mem_cons_self _ _) f hf'
        · rcases List.mem_singleton.mp hf' with rfl
          rw [← he]
          exact hx
      · exact hg fp fs (List.mem_cons_of_mem _ hmem') f hf
    · rw [if_neg he] at hmem
      rcases List.mem_cons.mp hmem with heq | hmem'
      · rw [Prod.mk.injEq] at heq
        obtain ⟨rfl, rfl⟩ := heq
        exact hg fp fs (List.mem_cons_self _ _) f hf
      · exact ih (fun fp fs h => hg fp fs (List.mem_cons_of_mem _ h)) fp fs hmem' f hf

/-- Every finding filed by `apply_local`'s grouping loop carries its own
file as key and passed the applicability guard. -/
lemma groupByFile_mem_pred (ff : Option (List Char)) (findings : List Finding) :
    ∀ fp fs, (fp, fs) ∈ groupByFile ff findings → ∀ f ∈ fs,
      f.file = fp ∧ applicable ff f = true := by
  unfold groupByFile
  suffices h : ∀ (l : List Finding) (g0 : List (List Char × List Finding)),
      (∀ fp fs, (fp, fs) ∈ g0 → ∀ f ∈ fs, f.file = fp ∧ applicable ff f = true) →
      (∀ f ∈ l, applicable ff f = true) →
      ∀ fp fs, (fp, fs) ∈ l.foldl (fun g f => addToGroup f.file f g) g0 →
        ∀ f ∈ fs, f.file = fp ∧ applicable ff f = true by
    apply h _ []
    · intro fp fs hmem
      simp at hmem
    · intro f hf
      exact (List.mem_filter.mp hf).2
  intro l
  induction l with
  | nil =>
    intro g0 hg _
    simpa using hg
  | cons f rest ih =>
    intro g0 hg hl
    simp only [List.foldl_cons]
    apply ih
    · exact addToGroup_mem_pred _ _ _ _ hg ⟨rfl, hl f (List.mem_cons_self f rest)⟩
    · intro f' hf'
      exact hl f' (List.mem_cons_of_mem _ hf')

/-- C6: no edit with missing (falsy) `old_code` and no edit whose
`old_code` or replacement the natural-language filter catches is ever
grouped for application — such edits never reach the locator or the
substitution step — and a batch whose single edit has
`old_code = "Remove the unused variable x"` applies zero edits. -/
theorem groupByFile_filters :
    (∀ (ff : Option (List Char)) (findings : List Finding)
        (fp : List Char) (fs : List Finding) (f : Finding),
      (fp, fs) ∈ groupByFile ff findings → f ∈ fs →
      falsy f.old_code = false ∧ falsy f.suggestion = false ∧
      isNaturalLanguage (f.old_code.getD []) = false ∧
      isNaturalLanguage (f.suggestion.getD []) = false ∧ f.file = fp)
    ∧ applyLocal none
        [⟨toL "f", 1, some (toL "Remove the unused variable x"),
          some (toL "y = 2;")⟩]
        [(toL "f", toL "q")]
        = ([(toL "f", toL "q")], 0)
    ∧ groupByFile none
        [⟨toL "f", 1, some (toL "Remove the unused variable x"),
          some (toL "y = 2;")⟩] = [] := by
  refine ⟨?_, by decide, by decide⟩
  intro ff findings fp fs f hmem hf
  obtain ⟨hfile, happ⟩ := groupByFile_mem_pred ff findings fp fs hmem f hf
  simp only [applicable, Bool.and_eq_true, Bool.not_eq_true',
    Bool.or_eq_false_iff] at happ
  obtain ⟨⟨h1, h2⟩, _⟩ := happ
  exact ⟨h1.2, h1.1, h2.2, h2.1, hfile⟩

/-- A well-formed, applicable finding used to instantiate C6. -/
def c6ok : Finding := ⟨toL "g", 1, some (toL "a = 1"), some (toL "b = 2")⟩

theorem groupByFile_filters_inst :
    falsy c6ok.old_code = false ∧
    isNaturalLanguage (c6ok.old_code.getD []) = false := by
  have h := groupByFile_filters.1 none [c6ok] (toL "g") [c6ok] c6ok
    (by decide) (by decide)
  exact ⟨h.1, h.2.2.1⟩

/-- Updating one path leaves lookups of other paths unchanged. -/
lemma fsLookup_update_ne (fp fp' c : List Char) (l : FS) (h : fp ≠ fp') :
    fsLookup fp (fsUpdate fp' c l) = fsLookup fp l := by
  induction l with
  | nil => rfl
  | cons e rest ih =>
    obtain ⟨k, v⟩ := e
    by_cases hk : fp' = k
    · have hfpk : fp ≠ k := fun he => h (he.trans hk.symm)
      simp only [fsUpdate, if_pos hk, fsLookup, if_neg hfpk]
    · simp only [fsUpdate, if_neg hk, fsLookup]
      by_cases hfp : fp = k
      · rw [if_pos hfp, if_pos hfp]
      · rw [if_neg hfp, if_neg hfp]
        exact ih

/-- Updating a present path makes its lookup the new content. -/
lemma fsLookup_update_self {fp : List Char} {l : FS} (c : List Char)
    (h : fsLookup fp l ≠ none) :
    fsLookup fp (fsUpdate fp c l) = some c := by
  induction l with
  | nil => exact absurd rfl h
  | cons e rest ih =>
    obtain ⟨k, v⟩ := e
    by_cases hk : fp = k
    · simp [fsUpdate, fsLookup, hk]
    · have h' : fsLookup fp rest ≠ none := by
        simpa [fsLookup, hk] using h
      simp [fsUpdate, fsLookup, hk, ih h']

/-- Keys produced by `addToGroup` are the old keys plus possibly `k`. -/
lemma addToGroup_keys_sub (k : List Char) (x : Finding)
    (g : List (List Char × List Finding)) :
    ∀ j, j ∈ (addToGroup k x g).map Prod.fst → j = k ∨ j ∈ g.map Prod.fst := by
  induction g with
  | nil =>
    intro j hj
    simp only [addToGroup, List.map_cons, List.map_nil, List.mem_singleton] at hj
    exact Or.inl hj
  | cons p rest ih =>
    obtain ⟨k', fs'⟩ := p
    intro j hj
    simp only [addToGroup] at hj
    by_cases he : k = k'
    · rw [if_pos he] at hj
      simp only [List.map_cons, List.mem_cons] at hj
      rcases hj with rfl | hj
      · exact Or.inr (by simp)
      · exact Or.inr (by simp [hj])
    · rw [if_neg he] at hj
      simp only [List.map_cons, List.mem_cons] at hj
      rcases hj with rfl | hj
      · exact Or.inr (by simp)
      · rcases ih j hj with h | h
        · exact Or.inl h
        · exact Or.inr (by simp [h])

/-- `addToGroup` preserves distinctness of group keys. -/
lemma addToGroup_keys_nodup (k : List Char) (x : Finding)
    (g : List (List Char × List Finding))
    (h : (g.map Prod.fst).Nodup) :
    ((addToGroup k x g).map Prod.fst).Nodup := by
  induction g with
  | nil => simp [addToGroup]
  | cons p rest ih =>
    obtain ⟨k', fs'⟩ := p
    simp only [List.map_cons, List.nodup_cons] at h
    obtain ⟨hk', hrest⟩ := h
    simp only [addToGroup]
    by_cases he : k = k'
    · rw [if_pos he]
      simp only [List.map_cons, List.nodup_cons]
      exact ⟨hk', hrest⟩
    · rw [if_neg he]
      simp only [List.map_cons, List.nodup_cons]
      refine ⟨?_, ih hrest⟩
      intro hmem
      rcases addToGroup_keys_sub k x rest k' hmem with h | h
      · exact he h.symm
      · exact hk' h

/-- The grouping loop never files two groups under the same path. -/
lemma groupByFile_keys_nodup (ff : Option (List Char)) (findings : List Finding) :
    ((groupByFile ff findings).map Prod.fst).Nodup := by
  unfold groupByFile
  suffices h : ∀ (l : List Finding) (g0 : List (List Char × List Finding)),
      (g0.map Prod.fst).Nodup →
      ((l.foldl (fun g f => addToGroup f.file f g) g0).map Prod.fst).Nodup by
    exact h _ [] (by simp)
  intro l
  induction l with
  | nil =>
    intro g0 h
    simpa using h
  | cons f rest ih =>
    intro g0 h
    simp only [List.foldl_cons]
    exact ih _ (addToGroup_keys_nodup _ _ _ h)

/-- Invariant of `apply_local`'s outer loop over the grouped files:
the applied total is the sum of per-file success counts computed
against the original file system, files outside the groups are never
touched, a grouped file with zero successes keeps its original content,
and a grouped file with a success holds exactly the edit-fold result of
its CRLF-normalized original content. -/
lemma applyLocal_fold (files0 : FS) :
    ∀ (gs : List (List Char × List Finding)) (filesAcc : FS) (acc : Nat),
    (gs.map Prod.fst).Nodup →
    (∀ fp, fp ∈ gs.map Prod.fst → fsLookup fp filesAcc = fsLookup fp files0) →
    (gs.foldl applyLocalStep (filesAcc, acc)).2
        = acc + (gs.map (perFileCount files0)).sum
    ∧ (∀ fp, fp ∉ gs.map Prod.fst →
        fsLookup fp (gs.foldl applyLocalStep (filesAcc, acc)).1
          = fsLookup fp filesAcc)
    ∧ (∀ p ∈ gs, perFileCount files0 p = 0 →
        fsLookup p.1 (gs.foldl applyLocalStep (filesAcc, acc)).1
          = fsLookup p.1 files0)
    ∧ (∀ p ∈ gs, ∀ c, fsLookup p.1 files0 = some c →
        0 < perFileCount files0 p →
        fsLookup p.1 (gs.foldl applyLocalStep (filesAcc, acc)).1
          = some ((applyFile (normCRLF c) p.2).1)) := by
  intro gs
  induction gs with
  | nil =>
    intro filesAcc acc _ _
    exact ⟨by simp, fun fp _ => rfl,
      fun p hp => absurd hp (List.not_mem_nil p),
      fun p hp => absurd hp (List.not_mem_nil p)⟩
  | cons g rest ih =>
    intro filesAcc acc hnodup hsame
    obtain ⟨fp0, fs0⟩ := g
    simp only [List.map_cons, List.nodup_cons] at hnodup
    obtain ⟨hfp0, hnodup'⟩ := hnodup
    have hsame0 : fsLookup fp0 filesAcc = fsLookup fp0 files0 :=
      hsame fp0 (by simp)
    simp only [List.foldl_cons]
    cases hl : fsLookup fp0 files0 with
    | none =>
      have hstep : applyLocalStep (filesAcc, acc) (fp0, fs0) = (filesAcc, acc) := by
        simp [applyLocalStep, hsame0, hl]
      rw [hstep]
      have hper : perFileCount files0 (fp0, fs0) = 0 := by
        simp [perFileCount, hl]
      obtain ⟨ih1, ih2, ih3, ih4⟩ := ih filesAcc acc hnodup'
        (fun fp hfp => hsame fp (by simp [hfp]))
      refine ⟨?_, ?_, ?_, ?_⟩
      · rw [ih1, List.map_cons, List.sum_cons, hper]
        omega
      · intro fp hfp
        exact ih2 fp (fun hh => hfp (by simp [hh]))
      · intro p hp hpc
        rcases List.mem_cons.mp hp with rfl | hp'
        · rw [ih2 fp0 hfp0]
          exact hsame0
        · exact ih3 p hp' hpc
      · intro p hp c hc hpc
        rcases List.mem_cons.mp hp with rfl | hp'
        · rw [hl] at hc
          exact absurd hc (by simp)
        · exact ih4 p hp' c hc hpc
    | some c0 =>
      have hper : perFileCount files0 (fp0, fs0)
          = (applyFile (normCRLF c0) fs0).2 := by
        simp [perFileCount, hl]
      by_cases hpos : 0 < (applyFile (normCRLF c0) fs0).2
      · have hstep : applyLocalStep (filesAcc, acc) (fp0, fs0)
            = (fsUpdate fp0 (applyFile (normCRLF c0) fs0).1 filesAcc,
               acc + (applyFile (normCRLF c0) fs0).2) := by
          simp [applyLocalStep, hsame0, hl, hpos]
        rw [hstep]
        have hsame' : ∀ fp, fp ∈ rest.map Prod.fst →
            fsLookup fp (fsUpdate fp0 (applyFile (normCRLF c0) fs0).1 filesAcc)
              = fsLookup fp files0 := by
          intro fp hfp
          have hne : fp ≠ fp0 := fun he => hfp0 (he ▸ hfp)
          rw [fsLookup_update_ne _ _ _ _ hne]
          exact hsame fp (by simp [hfp])
        obtain ⟨ih1, ih2, ih3, ih4⟩ := ih _ (acc + (applyFile (normCRLF c0) fs0).2)
          hnodup' hsame'
        refine ⟨?_, ?_, ?_, ?_⟩
        · rw [ih1, List.map_cons, List.sum_cons, hper]
          omega
        · intro fp hfp
          have h1 : fp ∉ rest.map Prod.fst := fun hh => hfp (by simp [hh])
          have h2 : fp ≠ fp0 := fun he => hfp (by simp [he])
          rw [ih2 fp h1]
          exact fsLookup_update_ne _ _ _ _ h2
        · intro p hp hpc
          rcases List.mem_cons.mp hp with rfl | hp'
          · rw [hper] at hpc
            exact absurd hpc (by omega)
          · exact ih3 p hp' hpc
        · intro p hp c hc hpc
          rcases List.mem_cons.mp hp with rfl | hp'
          · rw [hl] at hc
            injection hc with hc'
            subst hc'
            rw [ih2 fp0 hfp0]
            apply fsLookup_update_self
            rw [hsame0, hl]
            simp
          · exact ih4 p hp' c hc hpc
      · have hstep : applyLocalStep (filesAcc, acc) (fp0, fs0) = (filesAcc, acc) := by
          simp [applyLocalStep, hsame0, hl, hpos]
        rw [hstep]
        obtain ⟨ih1, ih2, ih3, ih4⟩ := ih filesAcc acc hnodup'
          (fun fp hfp => hsame fp (by simp [hfp]))
        refine ⟨?_, ?_, ?_, ?_⟩
        · rw [ih1, List.map_cons, List.sum_cons, hper]
          omega
        · intro fp hfp
          exact ih2 fp (fun hh => hfp (by simp [hh]))
        · intro p hp hpc
          rcases List.mem_cons.mp hp with rfl | hp'
          · rw [ih2 fp0 hfp0]
            exact hsame0
          · exact ih3 p hp' hpc
        · intro p hp c hc hpc
          rcases List.mem_cons.mp hp with rfl | hp'
          · rw [hper] at hpc
            exact absurd hpc hpos
          · exact ih4 p hp' c hc hpc

/-- C8: the total `apply_local` returns equals the sum over grouped
files of that file's own success count (computed against the original
file system, so one file's location failures or absence never affect
another file's edits), a grouped file with zero successes is left
untouched, and files outside the grouping are never written. -/
theorem applyLocal_isolation (ff : Option (List Char)) (findings : List Finding)
    (files : FS) :
    (applyLocal ff findings files).2
        = ((groupByFile ff findings).map (perFileCount files)).sum
    ∧ (∀ p ∈ groupByFile ff findings, perFileCount files p = 0 →
        fsLookup p.1 (applyLocal ff findings files).1 = fsLookup p.1 files)
    ∧ (∀ fp, fp ∉ (groupByFile ff findings).map Prod.fst →
        fsLookup fp (applyLocal ff findings files).1 = fsLookup fp files) := by
  obtain ⟨h1, h2, h3, _⟩ := applyLocal_fold files (groupByFile ff findings)
    files 0 (groupByFile_keys_nodup ff findings) (fun _ _ => rfl)
  exact ⟨by simpa using h1, h3, h2⟩

/-- A finding for file A whose old code is absent (location failure). -/
def c8fA : Finding := ⟨toL "A", 3, some (toL "zz = 9"), some (toL "w = 0")⟩

/-- A finding for file B that applies cleanly. -/
def c8fB : Finding := ⟨toL "B", 1, some (toL "x = 1"), some (toL "x = 2")⟩

/-- A two-file system for the isolation instance. -/
def c8files : FS := [(toL "A", toL "aa"), (toL "B", toL "x = 1")]

theorem applyLocal_isolation_inst :
    fsLookup (toL "A") (applyLocal none [c8fA, c8fB] c8files).1
      = fsLookup (toL "A") c8files
    ∧ (applyLocal none [c8fA, c8fB] c8files).2
      = ((groupByFile none [c8fA, c8fB]).map (perFileCount c8files)).sum := by
  have h := applyLocal_isolation none [c8fA, c8fB] c8files
  exact ⟨h.2.1 (toL "A", [c8fA]) (by decide) (by decide), h.1⟩

/-- C10 counterexample: for an original content `"a\r\r\r\nx = 1"` with
one successful edit, `apply_local` writes `"a\r\ny = 2"`, which still
contains a CRLF line ending: the two single passes of
`replace('\r\n', '\n')` (one in `apply_local`, one in
`_find_and_replace`) each let a preceding `\r` pair up with the freshly
written `\n`, so not every line ending of the written file is `\n`. -/
theorem applyLocal_crlf_cex :
    applyLocal none [⟨toL "f", 2, some (toL "x = 1"), some (toL "y = 2")⟩]
      [(toL "f", toL "a\r\r\r\nx = 1")]
      = ([(toL "f", toL "a\r\ny = 2")], 1)
    ∧ occursIn (toL "\r\n") (toL "a\r\ny = 2") = true := by decide

/-- C10 (amended): for a grouped file with at least one successful edit,
`apply_local` writes back exactly the edit fold applied to the
single-pass CRLF→LF normalization of the original content (each edit's
`_find_and_replace` performs one further such pass), so CRLF pairs on
untouched lines are rewritten too, though a `\r` run such as
`"\r\r\r\n"` can leave a CRLF in the output; a grouped file in which no
edit succeeds is not rewritten and keeps its original bytes. -/
theorem applyLocal_written_content (ff : Option (List Char))
    (findings : List Finding) (files : FS) (p : List Char × List Finding)
    (c : List Char) (hp : p ∈ groupByFile ff findings)
    (hc : fsLookup p.1 files = some c) :
    (0 < perFileCount files p →
      fsLookup p.1 (applyLocal ff findings files).1
        = some ((applyFile (normCRLF c) p.2).1))
    ∧ (perFileCount files p = 0 →
        fsLookup p.1 (applyLocal ff findings files).1 = some c) := by
  obtain ⟨_, h2, h3, h4⟩ := applyLocal_fold files (groupByFile ff findings)
    files 0 (groupByFile_keys_nodup ff findings) (fun _ _ => rfl)
  constructor
  · intro hpos
    exact h4 p hp c hc hpos
  · intro h0
    show fsLookup p.1 ((groupByFile ff findings).foldl applyLocalStep (files, 0)).1
      = some c
    rw [h3 p hp h0]
    exact hc

/-- The single grouped file of the C10 instance. -/
def w10g : List Char × List Finding :=
  (toL "g", [⟨toL "g", 2, some (toL "q = 1"), some (toL "q = 2")⟩])

/-- The one-file system of the C10 instance, with a CRLF line ending. -/
def w10files : FS := [(toL "g", toL "p\r\nq = 1")]

theorem applyLocal_written_inst :
    fsLookup (toL "g") (applyLocal none w10g.2 w10files).1
      = some ((applyFile (normCRLF (toL "p\r\nq = 1")) w10g.2).1) :=
  (applyLocal_written_content none w10g.2 w10files w10g (toL "p\r\nq = 1")
    (by decide) (by decide)).1 (by decide)

end BoomAI
